import Mathlib

/-!
Verification of the analytics core of the Crypto-Analytics-Platform
(`src/analytics.py`, class `Analytics`), shallowly embedded in Lean.

Conventions of the embedding:
* pandas float values are modelled as exact rationals (`ℚ`); values that can
  only be expressed with a square root (standard deviations, z-scores,
  correlations) live in `ℝ`.
* A pandas timestamp is an epoch-millisecond integer.  A raw tick timestamp
  is `Option ℤ`: `some t` models a value `pd.to_datetime` parses to `t`,
  `none` models an unparseable value (the parse itself happens outside the
  core, so only its success/failure and result are modelled).
* `NaN` cells are modelled as `none` of an `Option` type.
* A raised-and-caught exception path (`except ... return empty`) is modelled
  by returning the same empty/neutral value the handler returns.
-/

namespace CryptoAnalytics

/-- A raw trade tick (one row of the input DataFrame of `resample_ohlcv`,
columns `symbol`, `timestamp`, `price`, `size`).  `timestamp = none` models
an unparseable timestamp. -/
structure Tick where
  symbol : String
  timestamp : Option ℤ
  price : ℚ
  size : ℚ
deriving Repr, DecidableEq

/-- A tick after `pd.to_datetime` succeeded: the timestamp is a concrete
epoch-millisecond instant. -/
structure PTick where
  symbol : String
  ts : ℤ
  price : ℚ
  size : ℚ
deriving Repr, DecidableEq

/-- One output row of `resample_ohlcv` (columns `datetime`, `open`, `high`,
`low`, `close`, `volume`, `symbol`); `dt` is the bucket start instant. -/
structure Candle where
  dt : ℤ
  open_ : ℚ
  high : ℚ
  low : ℚ
  close : ℚ
  volume : ℚ
  symbol : String
deriving Repr, DecidableEq

/-- The `freq_map` dictionary of `resample_ohlcv` (lines 34-37), composed
with the length in milliseconds of the resulting pandas offset: the fixed
supported granularity set.  An unsupported string is passed through to
pandas verbatim by the source; that fallback is not modelled (`none`). -/
def freqMap : String → Option ℤ
  | "1s" => some 1000
  | "5s" => some 5000
  | "10s" => some 10000
  | "30s" => some 30000
  | "1min" => some 60000
  | "5min" => some 300000
  | "15min" => some 900000
  | "1h" => some 3600000
  | "1H" => some 3600000
  | _ => none

/-- Start of the resampling bucket containing instant `t` (pandas resample
bins of width `freq` anchored at the epoch; floor division). -/
def bucketOf (freq t : ℤ) : ℤ := freq * (t.fdiv freq)

/-- The batch `pd.to_datetime(df['timestamp'])` call (line 47/49): parsing is
column-wide, so a single unparseable value makes the whole conversion raise
(`none`); otherwise every tick carries its parsed instant. -/
def parseTicks : List Tick → Option (List PTick)
  | [] => some []
  | t :: ts =>
    match t.timestamp, parseTicks ts with
    | some ms, some rest => some (⟨t.symbol, ms, t.price, t.size⟩ :: rest)
    | _, _ => none

/-- OHLCV aggregation of the ticks of one bucket
(`resample(...).ohlc()` / `resample(...).sum()`, lines 60-66): `open`/`close`
are the prices of the earliest/latest tick of the bucket (pandas sorts the
index; on equal timestamps input order is preserved, hence the first/last
occurrence tie rules), `high`/`low` the extreme prices, `volume` the summed
sizes.  An empty bucket has no aggregate (`none`, a NaN row before
gap-filling).  The source's `low.where(low > 0)` guard is the identity here:
ticks with `price ≤ 0` were already dropped, so every aggregated low is
positive. -/
def aggBucket (sym : String) (b : ℤ) : List PTick → Option Candle
  | [] => none
  | t :: ts =>
    some { dt := b
           open_ := (ts.foldl (fun a u => if u.ts < a.ts then u else a) t).price
           high := ts.foldl (fun a u => max a u.price) t.price
           low := ts.foldl (fun a u => min a u.price) t.price
           close := (ts.foldl (fun a u => if a.ts ≤ u.ts then u else a) t).price
           volume := ts.foldl (fun a u => a + u.size) t.size
           symbol := sym }

/-- The complete continuous bucket range `pd.date_range(start, end, freq)`
(lines 70-74): all instants `b0 + freq·k` up to `b1` (both ends are bucket
boundaries). -/
def calendar (freq b0 b1 : ℤ) : List ℤ :=
  (List.range (((b1 - b0).fdiv freq).toNat + 1)).map
    (fun k : ℕ => b0 + freq * (k : ℤ))

/-- Reindexing onto the full calendar plus gap handling (lines 75-88):
a bucket with trades keeps its aggregate; a bucket without trades becomes a
flat candle at the forward-filled close with zero volume; buckets before the
first trade (forward fill has no value yet) are dropped (`dropna`). -/
def fillBuckets (freq : ℤ) (sym : String) (sts : List PTick) :
    Option ℚ → List ℤ → List Candle
  | _, [] => []
  | lastC, b :: bs =>
    match aggBucket sym b (sts.filter (fun t => bucketOf freq t.ts = b)) with
    | some c => c :: fillBuckets freq sym sts (some c.close) bs
    | none =>
      match lastC with
      | some cl =>
        ⟨b, cl, cl, cl, cl, 0, sym⟩ :: fillBuckets freq sym sts (some cl) bs
      | none => fillBuckets freq sym sts none bs

/-- Helper for `firstUniques`: keep the first occurrence of each value,
skipping values already seen. -/
def firstUniquesAux (seen : List String) : List String → List String
  | [] => []
  | s :: ss =>
    if s ∈ seen then firstUniquesAux seen ss
    else s :: firstUniquesAux (s :: seen) ss

/-- `df['symbol'].unique()` (line 54): the distinct symbols in order of first
appearance. -/
def firstUniques (l : List String) : List String := firstUniquesAux [] l

/-- The per-symbol body of the resampling loop (lines 54-94): select the
symbol's ticks, aggregate per bucket, build the calendar between the
symbol's first and last traded bucket, reindex and gap-fill.  A symbol with
no ticks contributes nothing (`continue`). -/
def resampleSymbol (freq : ℤ) (sym : String) (pts : List PTick) : List Candle :=
  match pts.filter (fun t => t.symbol = sym) with
  | [] => []
  | t :: ts =>
    let b0 := ts.foldl (fun a u => min a (bucketOf freq u.ts)) (bucketOf freq t.ts)
    let b1 := ts.foldl (fun a u => max a (bucketOf freq u.ts)) (bucketOf freq t.ts)
    fillBuckets freq sym (t :: ts) none (calendar freq b0 b1)

/-- `Analytics.resample_ohlcv` (lines 19-105), with the granularity already
converted to a bucket width in milliseconds.  Empty input, an input with no
positive-price tick, a non-positive bucket width (an offset pandas rejects)
and a batch whose timestamp column fails to parse all reach an
empty/exception path and return the empty frame. -/
def resample_ohlcv (ticks : List Tick) (freqMs : ℤ) : List Candle :=
  if ticks.isEmpty then []
  else if freqMs ≤ 0 then []
  else
    let pos := ticks.filter (fun t => 0 < t.price)
    if pos.isEmpty then []
    else
      match parseTicks pos with
      | none => []
      | some pts =>
        (firstUniques (pts.map (fun t => t.symbol))).flatMap
          (fun s => resampleSymbol freqMs s pts)

/-- The buckets in which a given symbol actually traded (positive-price ticks
only), read off the raw input: the reference point for the gap-fill
invariant. -/
def tradedBuckets (ticks : List Tick) (freq : ℤ) (sym : String) : List ℤ :=
  ticks.filterMap (fun t =>
    if t.symbol = sym ∧ 0 < t.price then t.timestamp.map (bucketOf freq) else none)

/-- Presentation of a candle as a tick, for feeding resampler output back to
the resampler: the bucket-start instant with the candle's close as price and
its volume as size. -/
def candleToTick (c : Candle) : Tick :=
  { symbol := c.symbol, timestamp := some c.dt, price := c.close, size := c.volume }

/-- A contiguous stream of flat candles for one symbol: candle `k` sits at
bucket `b0 + freq·k` with all four prices equal to `(cvs.get k).1` and
volume `(cvs.get k).2`. -/
def flatStream (sym : String) (freq b0 : ℤ) (cvs : List (ℚ × ℚ)) : List Candle :=
  (List.range cvs.length).map (fun k =>
    let cv := cvs.getD k (0, 0)
    ⟨b0 + freq * k, cv.1, cv.1, cv.1, cv.1, cv.2, sym⟩)

/-- `Analytics.calculate_hedge_ratio` (lines 107-135) with `method = 'ols'`.
sklearn's `LinearRegression().fit(X, y)` is called with the single feature
column `X = price1` and the target `y = price2`; for one feature it computes
the least-squares slope `cov(price1, price2) / var(price1)` and intercept
`mean(price2) − slope · mean(price1)` (for a constant `price1` the
minimum-norm solution has slope 0, which the rational convention `q / 0 = 0`
reproduces exactly).  Mismatched lengths make `fit` raise and the handler
return the fallback.  The `method = 'huber'` branch calls the external
iterative `HuberRegressor` and is not modelled; no claim depends on it. -/
def calculate_hedge_ratio (price1 price2 : List ℚ) : ℚ × ℚ :=
  if price1.length < 2 ∨ price2.length < 2 then (1, 0)
  else if price1.length ≠ price2.length then (1, 0)
  else
    let n : ℚ := price1.length
    let mx := price1.sum / n
    let my := price2.sum / n
    let sxy := ((price1.zip price2).map (fun p => (p.1 - mx) * (p.2 - my))).sum
    let sxx := (price1.map (fun x => (x - mx) ^ 2)).sum
    let slope := sxy / sxx
    (slope, my - slope * mx)

/-- `Analytics.calculate_spread` (lines 137-151): `price1 − hedge_ratio · price2`
elementwise over the aligned series. -/
def calculate_spread (price1 price2 : List ℚ) (hr : ℚ) : List ℚ :=
  (price1.zip price2).map (fun p => p.1 - hr * p.2)

/-- Sum of squared residuals of `price1` against `ratio · price2 + intercept`:
the objective the spec says the OLS fit minimizes (the orientation whose
residual is the spread `price1 − ratio · price2`).  Stated from the spec, to
be compared with what `calculate_hedge_ratio` returns. -/
def ssrSpread (price1 price2 : List ℚ) (r c : ℚ) : ℚ :=
  ((price1.zip price2).map (fun p => (p.1 - r * p.2 - c) ^ 2)).sum

/-- The trailing window of width `w` ending at index `i`: the observations a
pandas size-`w` rolling aggregate at row `i` sees. -/
def windowAt (xs : List ℚ) (w i : ℕ) : List ℚ := (xs.take (i + 1)).drop (i + 1 - w)

/-- `series.rolling(window=w).mean()` at row `i`: `NaN` (`none`) until `w`
observations are available. -/
def rollingMeanAt (xs : List ℚ) (w i : ℕ) : Option ℚ :=
  if w ≤ i + 1 then some ((windowAt xs w i).sum / w) else none

/-- `series.rolling(window=w).var()` at row `i` (pandas default `ddof = 1`,
the sample variance): `NaN` until `w` observations are available, and `NaN`
for `w = 1` (zero degrees of freedom make the estimator `0/0`). -/
def rollingVarAt (xs : List ℚ) (w i : ℕ) : Option ℚ :=
  if w ≤ i + 1 ∧ 2 ≤ w then
    some (((windowAt xs w i).map
      (fun x => (x - (windowAt xs w i).sum / w) ^ 2)).sum / ((w : ℚ) - 1))
  else none

/-- The standard-deviation pipeline of `calculate_zscore` (lines 170-173):
`rolling(w).std()` followed by `replace(0, np.nan)`.  The rolling std is the
square root of the sample variance and is zero exactly when that variance is
zero, so the zero-replacement is keyed on the (rational) variance. -/
noncomputable def stdReplacedAt (xs : List ℚ) (w i : ℕ) : Option ℝ :=
  match rollingVarAt xs w i with
  | some v => if v = 0 then none else some (Real.sqrt v)
  | none => none

/-- `Analytics.calculate_zscore` (lines 153-180): the zero series when the
input is shorter than the window; `rolling(window=0)` raises inside the
`try` and the handler returns the zero series; otherwise
`(series − rolling_mean) / rolling_std` with the zero-replaced std, then
`fillna(0)` turns every `NaN` cell into `0`. -/
noncomputable def calculate_zscore (xs : List ℚ) (w : ℕ) : List ℝ :=
  if xs.length < w then List.replicate xs.length 0
  else if w = 0 then List.replicate xs.length 0
  else
    (List.range xs.length).map (fun i =>
      match rollingMeanAt xs w i, stdReplacedAt xs w i with
      | some m, some s => ((xs.getD i 0 - m : ℚ) : ℝ) / s
      | _, _ => 0)

/-- `Analytics.rolling_correlation` (lines 211-229):
`s1.rolling(window=w).corr(s2)`, on the index of `s1`.  Row `i` is `NaN`
(`none`) while fewer than `w` observations are available, where the other
series has no aligned value, for `w = 1`, and where either window has zero
variance (a `0/0` correlation); otherwise it is the sample Pearson
correlation of the two trailing windows.  `w = 0` makes `rolling` raise and
the handler return the zero series. -/
noncomputable def rolling_correlation (s1 s2 : List ℚ) (w : ℕ) : List (Option ℝ) :=
  if w = 0 then List.replicate s1.length (some 0)
  else
    (List.range s1.length).map (fun i =>
      if i < s2.length then
        match rollingVarAt s1 w i, rollingVarAt s2 w i with
        | some v1, some v2 =>
          if v1 = 0 ∨ v2 = 0 then none
          else
            some (((((windowAt s1 w i).zip (windowAt s2 w i)).map
                (fun p => (p.1 - (windowAt s1 w i).sum / w)
                  * (p.2 - (windowAt s2 w i).sum / w))).sum / ((w : ℚ) - 1) : ℚ)
              / (Real.sqrt v1 * Real.sqrt v2))
        | _, _ => none
      else none)

/-- The fields of statsmodels' `adfuller` output that `adf_test` reads:
`result[0]` (statistic), `result[1]` (p-value) and `result[4]` (critical
values). -/
structure AdfRaw where
  statistic : ℚ
  pvalue : ℚ
  critical_values : List (String × ℚ)
deriving Repr, DecidableEq

/-- The dictionary `adf_test` returns. -/
structure AdfResult where
  statistic : ℚ
  pvalue : ℚ
  critical_values : List (String × ℚ)
  is_stationary : Bool
deriving Repr, DecidableEq

/-- Packaging of the raw test output into the returned dictionary
(lines 200-205); `is_stationary` is `p-value < 0.05`. -/
def mkAdfResult (r : AdfRaw) : AdfResult :=
  { statistic := r.statistic, pvalue := r.pvalue,
    critical_values := r.critical_values,
    is_stationary := decide (r.pvalue < 1/20) }

/-- `Analytics.adf_test` (lines 182-209), parameterized by the external
statsmodels unit-root test `adfuller series maxlag`, whose numerics are
outside the repository: drop missing values, return `None` below 10 clean
observations, otherwise run the test with `maxlag = min(10, n // 5)`. -/
def adf_test (adfuller : List ℚ → ℕ → AdfRaw) (series : List (Option ℚ)) :
    Option AdfResult :=
  let clean := series.filterMap id
  if clean.length < 10 then none
  else some (mkAdfResult (adfuller clean (min 10 (clean.length / 5))))

/-- Trade side of the backtest. -/
inductive Side
  | long
  | short
deriving Repr, DecidableEq

/-- One row of the backtest's trade log: the entry fields are set when the
trade opens, the exit fields (`None`, i.e. absent, while the trade is open)
when it closes.  Times are positional indices into the input series (their
default integer index). -/
structure Trade where
  entry_time : ℕ
  entry_price : ℚ
  entry_zscore : ℚ
  side : Side
  exit_time : Option ℕ
  exit_price : Option ℚ
  exit_zscore : Option ℚ
  pnl : Option ℚ
deriving Repr, DecidableEq

/-- The loop state of `backtest_mean_reversion`: current position, entry
price of the open trade, the trade log (kept most recent first so the
in-place `trades[-1]` update is a head update; reversed on return) and the
`positions` series. -/
structure BState where
  pos : ℤ
  entry_price : ℚ
  trades : List Trade
  positions : List ℤ
deriving Repr, DecidableEq

/-- One iteration of the backtest loop (lines 253-286) at bar `i`: entry
logic while flat (short on `z > entry_th`, long on `z < -entry_th`), exit
logic while in a position (`pnl = pos · (entry_price − spread[i])`), and the
unconditional `positions[i] = pos` write at the end of the bar.  The
`trades[-1]` update with an empty log is unreachable (a nonzero position
always has its open trade at the head of the log). -/
def btStep (entry_th exit_th : ℚ) (spread zscore : List ℚ) (s : BState) (i : ℕ) :
    BState :=
  let z := zscore.getD i 0
  if s.pos = 0 then
    if entry_th < z then
      { pos := -1, entry_price := spread.getD i 0,
        trades := ⟨i, spread.getD i 0, z, Side.short, none, none, none, none⟩
          :: s.trades,
        positions := s.positions.set i (-1) }
    else if z < -entry_th then
      { pos := 1, entry_price := spread.getD i 0,
        trades := ⟨i, spread.getD i 0, z, Side.long, none, none, none, none⟩
          :: s.trades,
        positions := s.positions.set i 1 }
    else { s with positions := s.positions.set i 0 }
  else
    if (s.pos = -1 ∧ z < exit_th) ∨ (s.pos = 1 ∧ exit_th < z) then
      match s.trades with
      | tr :: rest =>
        { pos := 0, entry_price := s.entry_price,
          trades := { tr with
            exit_time := some i,
            exit_price := some (spread.getD i 0),
            exit_zscore := some z,
            pnl := some ((s.pos : ℚ) * (s.entry_price - spread.getD i 0)) } :: rest,
          positions := s.positions.set i 0 }
      | [] => { s with pos := 0, positions := s.positions.set i 0 }
    else { s with positions := s.positions.set i s.pos }

/-- `Analytics.backtest_mean_reversion` (lines 231-292): fold the step over
bars `1 .. len(zscore) − 1` starting flat, over a `positions` series
initialized to zero on the spread's index.  If the z-score series is longer
than the spread series, the loop's positional access raises and the handler
returns an empty trade log and the all-zero position series. -/
def backtest_mean_reversion (spread zscore : List ℚ) (entry_th exit_th : ℚ) :
    List Trade × List ℤ :=
  if spread.length < zscore.length then ([], List.replicate spread.length 0)
  else
    let fin := (List.range' 1 (zscore.length - 1)).foldl
      (btStep entry_th exit_th spread zscore)
      ⟨0, 0, [], List.replicate spread.length 0⟩
    (fin.trades.reverse, fin.positions)

/-- The parsed row a tick with a parseable timestamp becomes (the value
`parseTicks` produces for it). -/
def toP (t : Tick) : PTick :=
  ⟨t.symbol, t.timestamp.getD 0, t.price, t.size⟩

/-- The backtest's position after bar `j`, read directly off the entry/exit
state machine (used to characterize the `positions` series the fold
produces). -/
def posAfter (entry_th exit_th : ℚ) (zscore : List ℚ) : ℕ → ℤ
  | 0 => 0
  | j + 1 =>
    let p := posAfter entry_th exit_th zscore j
    let z := zscore.getD (j + 1) 0
    if p = 0 then
      if entry_th < z then -1 else if z < -entry_th then 1 else 0
    else if (p = -1 ∧ z < exit_th) ∨ (p = 1 ∧ exit_th < z) then 0
    else p

/-!  ## Theorems -/

/-- C1.  The claim says a closed SHORT trade records
`pnl = entry_price − spread at the exit bar` (and a LONG the negation).  The
code records `pnl = pos · (entry_price − current_spread)` with `pos = -1`
for a short, i.e. the opposite sign: on `spread = [0,1,2]`,
`zscore = [0,3,-1]`, thresholds `2`/`0`, the single short trade enters at
bar 1 with `entry_price = 1` and exits at bar 2 where the spread is `2`;
the recorded pnl is `2 − 1 = 1` where the claim requires `1 − 2 = -1`.  A
short position that closes with the spread higher than at entry is booked
as a profit, contradicting the spec's own reading ("short profits when
spread falls") and the sign convention the portfolio page of `app.py`
(lines 1368-1372) uses. -/
theorem backtest_short_pnl_sign_bug :
    (backtest_mean_reversion [0, 1, 2] [0, 3, -1] 2 0).1.map
        (fun t => (t.side, t.entry_price, t.exit_price, t.pnl))
      = [(Side.short, 1, some 2, some (2 - 1))] ∧
    ((2 : ℚ) - 1) ≠ ((1 : ℚ) - 2) := by
  norm_num [backtest_mean_reversion, btStep, List.range', List.getD, List.set]

/-- C2.  The claim says `calculate_hedge_ratio` with `method = 'ols'`
minimizes the sum of squared residuals of `price1` against
`ratio · price2 + intercept`.  The code fits the opposite orientation
(`X = price1`, `y = price2`): on `price1 = [0,1]`, `price2 = [0,2]` it
returns `(2, 0)`, whose spread-orientation residual sum is `9`, while
`(1/2, 0)` achieves `0` — so the returned pair is not the minimizer the
claim (and the spec's spread `price1 − ratio · price2`, which `app.py`
builds from this very ratio) requires. -/
theorem hedge_ratio_orientation_bug :
    calculate_hedge_ratio [0, 1] [0, 2] = (2, 0) ∧
    ssrSpread [0, 1] [0, 2] (1/2) 0 < ssrSpread [0, 1] [0, 2] 2 0 := by
  norm_num [calculate_hedge_ratio, ssrSpread]

/-- C7.  The single-trade scenario of the spec: on `spread = [0,0,0,0,0]`,
`zscore = [0, 2.5, 2.5, -0.1, -0.1]` with entry threshold `2.0` and exit
threshold `0.0`, the backtest produces exactly one trade, side short,
entered at index 1 (entry price `0`), exited at index 3 (exit price `0`),
with `pnl = 0 = entry_price − exit_price`, and positions
`[0, -1, -1, 0, 0]`. -/
theorem backtest_single_trade_scenario :
    backtest_mean_reversion [0, 0, 0, 0, 0] [0, 5/2, 5/2, -1/10, -1/10] 2 0
      = ([⟨1, 0, 5/2, Side.short, some 3, some 0, some (-1/10), some 0⟩],
         [0, -1, -1, 0, 0]) := by
  norm_num [backtest_mean_reversion, btStep, List.range', List.getD, List.set]

/-- C9.  `adf_test` first drops missing values; with fewer than 10 clean
observations it returns no result object at all (`none` — the embedding is a
total function, so no exception and no placeholder result), and otherwise it
runs the unit-root test on the clean series with lag order capped at
`min(10, n / 5)` (integer division), for any behaviour of the external test
itself. -/
theorem adf_test_min_data_spec (adfuller : List ℚ → ℕ → AdfRaw)
    (series : List (Option ℚ)) :
    ((series.filterMap id).length < 10 → adf_test adfuller series = none) ∧
    (10 ≤ (series.filterMap id).length →
      adf_test adfuller series
        = some (mkAdfResult (adfuller (series.filterMap id)
            (min 10 ((series.filterMap id).length / 5))))) := by
  constructor
  · intro h
    simp [adf_test, h]
  · intro h
    simp [adf_test, Nat.not_lt.mpr h]

/-- Witness for C9: a series with 9 clean observations (one cell missing)
yields `none`; ten clean observations yield the packaged result of the
external test. -/
theorem adf_test_min_data_spec_witness :
    adf_test (fun _ _ => ⟨0, 1, []⟩)
        (List.replicate 9 (some 1) ++ [none]) = none ∧
    adf_test (fun _ _ => ⟨0, 1, []⟩) (List.replicate 10 (some 1))
      = some (mkAdfResult ⟨0, 1, []⟩) := by
  constructor
  · exact (adf_test_min_data_spec (fun _ _ => ⟨0, 1, []⟩)
      (List.replicate 9 (some 1) ++ [none])).1 (by simp)
  · exact (adf_test_min_data_spec (fun _ _ => ⟨0, 1, []⟩)
      (List.replicate 10 (some 1))).2 (by simp)

/-- C10.  At every row with fewer than `w` observations of history (row `i`
with `i + 1 < w`), `rolling_correlation` reports an undefined value (`NaN`,
here `none`) — while `calculate_zscore` at the same row substitutes the
neutral `0`.  Downstream consumers of the correlation must handle `NaN`;
consumers of the z-score never see one. -/
theorem rolling_correlation_nan_policy (s1 s2 : List ℚ) (w i : ℕ)
    (hi : i + 1 < w) (hil : i < s1.length) :
    (rolling_correlation s1 s2 w)[i]? = some none ∧
    (calculate_zscore s1 w)[i]? = some 0 := by
  have hw0 : w ≠ 0 := by omega
  have hvar : rollingVarAt s1 w i = none := by
    simp [rollingVarAt]
    omega
  constructor
  · simp [rolling_correlation, hw0, List.getElem?_range, hil, hvar]
  · have hmean : rollingMeanAt s1 w i = none := by
      simp [rollingMeanAt]
      omega
    by_cases hlen : s1.length < w
    · simp [calculate_zscore, hlen, List.getElem?_replicate, hil]
    · simp [calculate_zscore, hlen, hw0, List.getElem?_range, hil, hmean]

/-- Witness for C10: with window 3, row 1 of the rolling correlation of
`[1,2,3]` with itself is `NaN`, while row 1 of its rolling z-score is 0. -/
theorem rolling_correlation_nan_policy_witness :
    (rolling_correlation [1, 2, 3] [1, 2, 3] 3)[1]? = some none ∧
    (calculate_zscore [1, 2, 3] 3)[1]? = some 0 :=
  rolling_correlation_nan_policy [1, 2, 3] [1, 2, 3] 3 1
    (by norm_num) (by norm_num)

theorem windowAt_length (xs : List ℚ) (w i : ℕ) (h1 : w ≤ i + 1)
    (h2 : i < xs.length) : (windowAt xs w i).length = w := by
  simp only [windowAt, List.length_drop, List.length_take]
  omega

theorem mem_of_mem_windowAt (xs : List ℚ) (w i : ℕ) (x : ℚ)
    (h : x ∈ windowAt xs w i) : x ∈ xs :=
  List.mem_of_mem_take (List.mem_of_mem_drop h)

theorem calculate_zscore_length (xs : List ℚ) (w : ℕ) :
    (calculate_zscore xs w).length = xs.length := by
  unfold calculate_zscore
  split
  · simp
  · split
    · simp
    · simp

/-- The generic row formula of `calculate_zscore` outside the short-series
and zero-window fallbacks. -/
theorem zscore_getElem_full (xs : List ℚ) (w i : ℕ) (hlen : ¬ xs.length < w)
    (hw0 : w ≠ 0) (hi : i < xs.length) :
    (calculate_zscore xs w)[i]?
      = some (match rollingMeanAt xs w i, stdReplacedAt xs w i with
              | some m, some s => ((xs.getD i 0 - m : ℚ) : ℝ) / s
              | _, _ => 0) := by
  simp [calculate_zscore, hlen, hw0, List.getElem?_range, hi]

/-- C3.  `calculate_zscore` with window `w` (indices of the claim read
1-based, matching its window `x_{i-w+1..i}`): a series shorter than the
window yields the all-zero series; every row with fewer than `w`
observations of history is 0; every row with a full window carries
`(x_i − mean) / std` over that trailing window — `std` being the code's
rolling standard deviation, the square root of the `ddof = 1` sample
variance — except that a zero rolling std is reported as 0; for `w = 1`
(degenerate sample std) every row is 0; and on a constant series every row
is 0. -/
theorem calculate_zscore_spec (xs : List ℚ) (w : ℕ) :
    (xs.length < w → calculate_zscore xs w = List.replicate xs.length 0) ∧
    (∀ i, i + 1 < w → i < xs.length → (calculate_zscore xs w)[i]? = some 0) ∧
    (∀ i m v, w ≤ i + 1 → 2 ≤ w → i < xs.length →
      m = (windowAt xs w i).sum / w →
      v = ((windowAt xs w i).map (fun x => (x - m) ^ 2)).sum / ((w : ℚ) - 1) →
      (v = 0 → (calculate_zscore xs w)[i]? = some 0) ∧
      (v ≠ 0 → (calculate_zscore xs w)[i]?
          = some (((xs.getD i 0 - m : ℚ) : ℝ) / Real.sqrt v))) ∧
    (w = 1 → calculate_zscore xs w = List.replicate xs.length 0) ∧
    (∀ c, (∀ x ∈ xs, x = c) → calculate_zscore xs w = List.replicate xs.length 0) := by
  refine ⟨fun h => by simp [calculate_zscore, h], ?_, ?_, ?_, ?_⟩
  · intro i hi hil
    have hw0 : w ≠ 0 := by omega
    have hmean : rollingMeanAt xs w i = none := by
      simp [rollingMeanAt]
      omega
    by_cases hlen : xs.length < w
    · simp [calculate_zscore, hlen, List.getElem?_replicate, hil]
    · rw [zscore_getElem_full xs w i hlen hw0 hil, hmean]
  · intro i m v hwi hw2 hil hm hv
    have hlen : ¬ xs.length < w := by omega
    have hw0 : w ≠ 0 := by omega
    have hmean : rollingMeanAt xs w i = some m := by
      simp [rollingMeanAt, hwi, hm]
    have hvar : rollingVarAt xs w i = some v := by
      simp [rollingVarAt, hwi, hw2, hv, hm]
    constructor
    · intro h0
      rw [zscore_getElem_full xs w i hlen hw0 hil, hmean]
      simp [stdReplacedAt, hvar, h0]
    · intro hne
      rw [zscore_getElem_full xs w i hlen hw0 hil, hmean]
      simp [stdReplacedAt, hvar, hne]
  · intro hw1
    subst hw1
    by_cases hlen : xs.length < 1
    · simp [calculate_zscore, hlen]
    · have : ∀ i, rollingVarAt xs 1 i = none := fun i => by
        simp [rollingVarAt]
      apply List.ext_getElem?
      intro i
      by_cases hil : i < xs.length
      · rw [zscore_getElem_full xs 1 i hlen one_ne_zero hil]
        rcases rollingMeanAt xs 1 i with _ | m <;>
          simp [stdReplacedAt, this, List.getElem?_replicate, hil]
      · have h1 : (calculate_zscore xs 1).length = xs.length := by
          simp [calculate_zscore, hlen]
        rw [List.getElem?_eq_none (by omega : (calculate_zscore xs 1).length ≤ i),
          List.getElem?_eq_none (by simp; omega)]
  · intro c hc
    by_cases hlen : xs.length < w
    · simp [calculate_zscore, hlen]
    · by_cases hw0 : w = 0
      · simp [calculate_zscore, hw0]
      · apply List.ext_getElem?
        intro i
        by_cases hil : i < xs.length
        · rw [zscore_getElem_full xs w i hlen hw0 hil]
          by_cases hwi : w ≤ i + 1
          · have hstd : stdReplacedAt xs w i = none := by
              by_cases hw2 : 2 ≤ w
              · have hwinlen : (windowAt xs w i).length = w :=
                  windowAt_length xs w i hwi hil
                have hwin : ∀ x ∈ windowAt xs w i, x = c := fun x hx =>
                  hc x (mem_of_mem_windowAt xs w i x hx)
                have hmean0 : (windowAt xs w i).sum / (w : ℚ) = c := by
                  rw [List.sum_eq_card_nsmul _ c hwin, hwinlen, nsmul_eq_mul]
                  have : (w : ℚ) ≠ 0 := Nat.cast_ne_zero.mpr hw0
                  field_simp
                have hv : rollingVarAt xs w i = some 0 := by
                  simp only [rollingVarAt, hwi, hw2, and_self, if_true, hmean0]
                  have : ((windowAt xs w i).map (fun x => (x - c) ^ 2)).sum = 0 := by
                    apply List.sum_eq_zero
                    intro y hy
                    rcases List.mem_map.mp hy with ⟨x, hx, rfl⟩
                    rw [hwin x hx]
                    ring
                  rw [this, zero_div]
                simp [stdReplacedAt, hv]
              · simp [stdReplacedAt, rollingVarAt, hw2]
            rcases hmean : rollingMeanAt xs w i with _ | m <;>
              simp [hmean, hstd, List.getElem?_replicate, hil]
          · have hmean : rollingMeanAt xs w i = none := by
              simp [rollingMeanAt]
              omega
            simp [hmean, List.getElem?_replicate, hil]
        · rw [List.getElem?_eq_none, List.getElem?_eq_none]
          · simp
            omega
          · rw [calculate_zscore_length]
            omega

/-- Witness for C3: on `[1, 2, 4]` with window 2, row 0 (fewer than 2
observations) is 0, and row 1 carries `(2 − 3/2) / sqrt(1/2)` — mean `3/2`
and sample variance `1/2` over the window `[1, 2]`. -/
theorem calculate_zscore_spec_witness :
    (calculate_zscore [1, 2, 4] 2)[0]? = some 0 ∧
    (calculate_zscore [1, 2, 4] 2)[1]?
      = some (((1/2 : ℚ) : ℝ) / Real.sqrt (1/2)) := by
  have h := calculate_zscore_spec [1, 2, 4] 2
  constructor
  · exact h.2.1 0 (by norm_num) (by norm_num)
  · have h3 := (h.2.2.1 1 (3/2) (1/2) (by norm_num) (by norm_num) (by norm_num)
      (by norm_num [windowAt]) (by norm_num [windowAt])).2 (by norm_num)
    rw [h3]
    norm_num

theorem parseTicks_eq_none_of_mem (l : List Tick) (t : Tick) (ht : t ∈ l)
    (hn : t.timestamp = none) : parseTicks l = none := by
  induction l with
  | nil => cases ht
  | cons u us ih =>
    rcases List.mem_cons.mp ht with rfl | hmem
    · simp [parseTicks, hn]
    · rw [parseTicks, ih hmem]
      rcases u.timestamp with _ | ms <;> simp

/-- Counterexample for C4: a batch holding one good tick and one tick with
an unparseable timestamp resamples to the empty output, not to the resample
of the batch with the bad tick removed (which is one candle) — the
column-wide `to_datetime` raises and the `except` handler discards the
whole batch. -/
theorem resample_bad_tick_not_isolated :
    resample_ohlcv [⟨"btc", some 0, 100, 1⟩, ⟨"btc", none, 100, 1⟩] 60000 = [] ∧
    resample_ohlcv [⟨"btc", some 0, 100, 1⟩] 60000
      = [⟨0, 100, 100, 100, 100, 1, "btc"⟩] := by
  decide

/-- C4 (amended).  A tick with an unparseable timestamp is not rejected
individually: if any tick surviving the `price > 0` filter has an
unparseable timestamp, `resample_ohlcv` rejects the entire batch and
returns the empty output.  (Only the `price ≤ 0` filter drops ticks
individually, because it runs before the timestamp parse.) -/
theorem resample_bad_tick_rejects_batch (ticks : List Tick) (freqMs : ℤ)
    (h : ∃ t ∈ ticks, 0 < t.price ∧ t.timestamp = none) :
    resample_ohlcv ticks freqMs = [] := by
  rcases h with ⟨t, hmem, hpos, hnone⟩
  have hpt : t ∈ ticks.filter (fun u => 0 < u.price) :=
    List.mem_filter.mpr ⟨hmem, by simpa using hpos⟩
  rw [resample_ohlcv]
  split
  · rfl
  · split
    · rfl
    · simp only [parseTicks_eq_none_of_mem _ t hpt hnone]
      split <;> rfl

/-- Witness for C4's amended statement at the counterexample batch. -/
theorem resample_bad_tick_rejects_batch_witness :
    resample_ohlcv [⟨"btc", some 0, 100, 1⟩, ⟨"btc", none, 100, 1⟩] 60000 = [] :=
  resample_bad_tick_rejects_batch _ _
    ⟨⟨"btc", none, 100, 1⟩, by decide, by decide, rfl⟩

theorem getD_replicate_zero (n j : ℕ) : (List.replicate n (0 : ℤ)).getD j 0 = 0 := by
  rw [List.getD_eq_getElem?_getD]
  by_cases h : j < n
  · simp [List.getElem?_replicate, h]
  · rw [List.getElem?_eq_none (by simpa using Nat.le_of_not_lt h)]
    rfl

theorem posAfter_mem (eth xth : ℚ) (zs : List ℚ) (j : ℕ) :
    posAfter eth xth zs j = -1 ∨ posAfter eth xth zs j = 0
      ∨ posAfter eth xth zs j = 1 := by
  induction j with
  | zero => simp [posAfter]
  | succ j ih =>
    simp only [posAfter]
    split_ifs <;> tauto

theorem posAfter_flat_step (eth xth : ℚ) (zs : List ℚ) (j : ℕ)
    (h0 : posAfter eth xth zs j = 0) (h1 : posAfter eth xth zs (j + 1) ≠ 0) :
    eth < zs.getD (j + 1) 0 ∨ zs.getD (j + 1) 0 < -eth := by
  rw [posAfter, h0] at h1
  simp only [if_true] at h1
  split_ifs at h1 with ha hb
  · exact Or.inl ha
  · exact Or.inr hb
  · simp at h1

theorem posAfter_no_flip (eth xth : ℚ) (zs : List ℚ) (j : ℕ) :
    posAfter eth xth zs j * posAfter eth xth zs (j + 1) ≠ -1 := by
  by_cases h0 : posAfter eth xth zs j = 0
  · rw [h0]
    simp
  · rw [posAfter]
    simp only [h0, if_false]
    split_ifs
    · simp
    · rcases posAfter_mem eth xth zs j with h | h | h <;> rw [h] <;> simp

theorem btStep_pos (eth xth : ℚ) (spread zscore : List ℚ) (s : BState) (i : ℕ) :
    (btStep eth xth spread zscore s i).pos
      = if s.pos = 0 then
          if eth < zscore.getD i 0 then -1
          else if zscore.getD i 0 < -eth then 1 else 0
        else if (s.pos = -1 ∧ zscore.getD i 0 < xth)
            ∨ (s.pos = 1 ∧ xth < zscore.getD i 0) then 0
        else s.pos := by
  unfold btStep
  rcases htr : s.trades with _ | ⟨tr, rest⟩ <;> by_cases h0 : s.pos = 0 <;>
    simp only [h0, htr, if_true, if_false] <;> split_ifs <;> rfl

theorem btStep_positions (eth xth : ℚ) (spread zscore : List ℚ) (s : BState)
    (i : ℕ) :
    (btStep eth xth spread zscore s i).positions
      = s.positions.set i (btStep eth xth spread zscore s i).pos := by
  unfold btStep
  rcases htr : s.trades with _ | ⟨tr, rest⟩ <;> by_cases h0 : s.pos = 0 <;>
    simp only [h0, htr, if_true, if_false] <;> split_ifs <;> rfl

theorem btStep_trades (eth xth : ℚ) (spread zscore : List ℚ) (s : BState) (i : ℕ)
    (h4 : s.pos = 0 → ∀ tr ∈ s.trades, tr.pnl.isSome)
    (h5 : s.pos ≠ 0 → ∃ tr rest, s.trades = tr :: rest ∧ tr.pnl = none ∧
        ∀ u ∈ rest, u.pnl.isSome) :
    ((btStep eth xth spread zscore s i).pos = 0 →
        ∀ tr ∈ (btStep eth xth spread zscore s i).trades, tr.pnl.isSome) ∧
    ((btStep eth xth spread zscore s i).pos ≠ 0 →
        ∃ tr rest, (btStep eth xth spread zscore s i).trades = tr :: rest ∧
          tr.pnl = none ∧ ∀ u ∈ rest, u.pnl.isSome) := by
  by_cases h0 : s.pos = 0
  · simp only [btStep]
    rw [if_pos h0]
    split_ifs with h1 h2
    · refine ⟨fun hp => absurd hp (by simp), fun _ => ⟨_, s.trades, rfl, rfl, h4 h0⟩⟩
    · refine ⟨fun hp => absurd hp (by simp), fun _ => ⟨_, s.trades, rfl, rfl, h4 h0⟩⟩
    · exact ⟨fun _ => h4 h0, fun hp => absurd h0 hp⟩
  · obtain ⟨tr, rest, htr, hopen, hrest⟩ := h5 h0
    simp only [btStep]
    rw [if_neg h0, htr]
    split_ifs with hexit
    · refine ⟨fun _ u hu => ?_, fun hp => absurd rfl hp⟩
      rcases List.mem_cons.mp hu with rfl | hu
      · rfl
      · exact hrest u hu
    · exact ⟨fun hp => absurd hp h0, fun _ => ⟨tr, rest, rfl, hopen, hrest⟩⟩

/-- Characterization of the backtest fold after processing bars `1 .. k`:
the running position follows the `posAfter` state machine, `positions`
carries `posAfter j` at every processed bar `j` and 0 elsewhere, and the
trade log has all trades closed except an open head exactly when a position
is held. -/
theorem btRun_invariant (eth xth : ℚ) (spread zscore : List ℚ)
    (hlen : zscore.length ≤ spread.length) :
    ∀ k : ℕ, k + 1 ≤ zscore.length →
    ∀ s : BState,
      s = (List.range' 1 k).foldl (btStep eth xth spread zscore)
            ⟨0, 0, [], List.replicate spread.length 0⟩ →
      s.pos = posAfter eth xth zscore k ∧
      s.positions.length = spread.length ∧
      (∀ j, s.positions.getD j 0
          = if 1 ≤ j ∧ j ≤ k then posAfter eth xth zscore j else 0) ∧
      (s.pos = 0 → ∀ tr ∈ s.trades, tr.pnl.isSome) ∧
      (s.pos ≠ 0 → ∃ tr rest, s.trades = tr :: rest ∧ tr.pnl = none ∧
          ∀ u ∈ rest, u.pnl.isSome) := by
  intro k
  induction k with
  | zero =>
    intro _ s hs
    subst hs
    simp only [List.range'_zero, List.foldl_nil]
    refine ⟨by simp [posAfter], by simp, fun j => ?_,
      fun _ tr htr => absurd htr (List.not_mem_nil tr), fun hp => absurd rfl hp⟩
    rw [getD_replicate_zero]
    have hc : ¬(1 ≤ j ∧ j ≤ 0) := by omega
    rw [if_neg hc]
  | succ k ih =>
    intro hk1 s hs
    obtain ⟨ih1, ih2, ih3, ih4, ih5⟩ := ih (by omega) _ rfl
    rw [List.range'_concat, List.foldl_append, List.foldl_cons, List.foldl_nil]
      at hs
    simp only [Nat.one_mul] at hs
    set s0 := (List.range' 1 k).foldl (btStep eth xth spread zscore)
      ⟨0, 0, [], List.replicate spread.length 0⟩ with hs0
    have hpos : s.pos = posAfter eth xth zscore (k + 1) := by
      rw [hs, btStep_pos, ih1, Nat.add_comm 1 k]
      simp only [posAfter]
    have hplen : (1 + k) < spread.length := by omega
    refine ⟨hpos, ?_, ?_, ?_, ?_⟩
    · rw [hs, btStep_positions, List.length_set]
      exact ih2
    · intro j
      rw [hs, btStep_positions, ← hs, hpos, List.getD_eq_getElem?_getD]
      by_cases hj : j = 1 + k
      · subst hj
        rw [List.getElem?_set_eq_of_lt _ (by rw [ih2]; exact hplen)]
        have hcond : 1 ≤ 1 + k ∧ 1 + k ≤ k + 1 := by omega
        rw [if_pos hcond, Nat.add_comm 1 k]
        rfl
      · rw [List.getElem?_set_ne (fun h => hj h.symm), ← List.getD_eq_getElem?_getD,
          ih3 j]
        by_cases hc : 1 ≤ j ∧ j ≤ k
        · have hc' : 1 ≤ j ∧ j ≤ k + 1 := ⟨hc.1, by omega⟩
          rw [if_pos hc, if_pos hc']
        · by_cases hc' : 1 ≤ j ∧ j ≤ k + 1
          · exfalso
            exact hj (by omega)
          · rw [if_neg hc, if_neg hc']
    · intro hp
      rw [hs] at hp ⊢
      exact (btStep_trades eth xth spread zscore s0 (1 + k) ih4 ih5).1 hp
    · intro hp
      rw [hs] at hp ⊢
      exact (btStep_trades eth xth spread zscore s0 (1 + k) ih4 ih5).2 hp

/-- C6.  Invariants of the backtest, for every input: every value of the
returned position series is in `{-1, 0, +1}`; at most one trade is ever
open, so every returned trade except possibly the last is closed (no new
entry while a position is open); a transition out of FLAT
(`positions[j] = 0`, `positions[j+1] ≠ 0`) only happens when the bar's
z-score strictly exceeds the entry threshold or is strictly below its
negation; and no bar flips the position directly between short and long
(adjacent positions never multiply to `-1`). -/
theorem backtest_position_invariants (spread zscore : List ℚ) (eth xth : ℚ) :
    (∀ p ∈ (backtest_mean_reversion spread zscore eth xth).2,
        p = -1 ∨ p = 0 ∨ p = 1) ∧
    (∀ tr ∈ (backtest_mean_reversion spread zscore eth xth).1.dropLast,
        tr.pnl.isSome) ∧
    (∀ j q, (backtest_mean_reversion spread zscore eth xth).2.getD j 0 = 0 →
        (backtest_mean_reversion spread zscore eth xth).2.getD (j + 1) 0 = q →
        q ≠ 0 →
        eth < zscore.getD (j + 1) 0 ∨ zscore.getD (j + 1) 0 < -eth) ∧
    (∀ j, (backtest_mean_reversion spread zscore eth xth).2.getD j 0
        * (backtest_mean_reversion spread zscore eth xth).2.getD (j + 1) 0 ≠ -1) := by
  have base : (backtest_mean_reversion spread zscore eth xth).1 = [] →
      (backtest_mean_reversion spread zscore eth xth).2
        = List.replicate spread.length 0 →
      (∀ p ∈ (backtest_mean_reversion spread zscore eth xth).2,
          p = -1 ∨ p = 0 ∨ p = 1) ∧
      (∀ tr ∈ (backtest_mean_reversion spread zscore eth xth).1.dropLast,
          tr.pnl.isSome) ∧
      (∀ j q, (backtest_mean_reversion spread zscore eth xth).2.getD j 0 = 0 →
          (backtest_mean_reversion spread zscore eth xth).2.getD (j + 1) 0 = q →
          q ≠ 0 →
          eth < zscore.getD (j + 1) 0 ∨ zscore.getD (j + 1) 0 < -eth) ∧
      (∀ j, (backtest_mean_reversion spread zscore eth xth).2.getD j 0
          * (backtest_mean_reversion spread zscore eth xth).2.getD (j + 1) 0
            ≠ -1) := by
    intro h1 h2
    refine ⟨fun p hp => ?_, fun tr htr => ?_, fun j q ha hb hq => ?_, fun j => ?_⟩
    · rw [h2] at hp
      exact Or.inr (Or.inl (List.eq_of_mem_replicate hp))
    · rw [h1] at htr
      cases htr
    · rw [h2, getD_replicate_zero] at hb
      exact absurd hb.symm hq
    · rw [h2, getD_replicate_zero, getD_replicate_zero]
      decide
  by_cases hlen : spread.length < zscore.length
  · have hr : backtest_mean_reversion spread zscore eth xth
        = ([], List.replicate spread.length 0) := by
      unfold backtest_mean_reversion
      rw [if_pos hlen]
    exact base (by rw [hr]) (by rw [hr])
  · have hle : zscore.length ≤ spread.length := Nat.le_of_not_lt hlen
    by_cases hn : zscore.length = 0
    · have hr : backtest_mean_reversion spread zscore eth xth
          = ([], List.replicate spread.length 0) := by
        unfold backtest_mean_reversion
        rw [if_neg hlen, hn]
        rfl
      exact base (by rw [hr]) (by rw [hr])
    · set fin := (List.range' 1 (zscore.length - 1)).foldl
        (btStep eth xth spread zscore)
        ⟨0, 0, [], List.replicate spread.length 0⟩ with hfin
      obtain ⟨inv1, inv2, inv3, inv4, inv5⟩ :=
        btRun_invariant eth xth spread zscore hle (zscore.length - 1)
          (by omega) _ rfl
      have hr1 : (backtest_mean_reversion spread zscore eth xth).1
          = fin.trades.reverse := by
        unfold backtest_mean_reversion
        rw [if_neg hlen]
      have hr2 : (backtest_mean_reversion spread zscore eth xth).2
          = fin.positions := by
        unfold backtest_mean_reversion
        rw [if_neg hlen]
      refine ⟨?_, ?_, ?_, ?_⟩
      · intro p hp
        rw [hr2] at hp
        obtain ⟨j, hj, hgj⟩ := List.mem_iff_getElem.mp hp
        have hchar := inv3 j
        rw [List.getD_eq_getElem?_getD, List.getElem?_eq_getElem hj, hgj] at hchar
        simp only [Option.getD_some] at hchar
        by_cases hc : 1 ≤ j ∧ j ≤ zscore.length - 1
        · rw [if_pos hc] at hchar
          rw [hchar]
          exact posAfter_mem eth xth zscore j
        · rw [if_neg hc] at hchar
          rw [hchar]
          exact Or.inr (Or.inl rfl)
      · intro tr htr
        rw [hr1] at htr
        by_cases hp0 : fin.pos = 0
        · exact inv4 hp0 tr (List.mem_reverse.mp (List.dropLast_subset _ htr))
        · obtain ⟨tr0, rest, htr0, hopen, hrest⟩ := inv5 hp0
          rw [htr0, List.reverse_cons, List.dropLast_concat] at htr
          exact hrest tr (List.mem_reverse.mp htr)
      · intro j q ha hb hq
        rw [hr2, inv3 j] at ha
        rw [hr2, inv3 (j + 1)] at hb
        by_cases hc2 : 1 ≤ j + 1 ∧ j + 1 ≤ zscore.length - 1
        · rw [if_pos hc2] at hb
          have hpj : posAfter eth xth zscore j = 0 := by
            by_cases hc1 : 1 ≤ j ∧ j ≤ zscore.length - 1
            · rw [if_pos hc1] at ha
              exact ha
            · have hj0 : j = 0 := by omega
              rw [hj0]
              rfl
          exact posAfter_flat_step eth xth zscore j hpj (by rw [hb]; exact hq)
        · rw [if_neg hc2] at hb
          exact absurd hb.symm hq
      · intro j
        rw [hr2, inv3 j, inv3 (j + 1)]
        by_cases hc1 : 1 ≤ j ∧ j ≤ zscore.length - 1 <;>
          by_cases hc2 : 1 ≤ j + 1 ∧ j + 1 ≤ zscore.length - 1
        · rw [if_pos hc1, if_pos hc2]
          exact posAfter_no_flip eth xth zscore j
        · rw [if_pos hc1, if_neg hc2]
          simp
        · rw [if_neg hc1, if_pos hc2]
          simp
        · rw [if_neg hc1, if_neg hc2]
          decide

/-- Witness for C6, on the single-trade scenario: the flat-to-short
transition at bar 1 implies its z-score `2.5` crossed the entry
threshold 2. -/
theorem backtest_position_invariants_witness :
    2 < ([0, 5/2, 5/2, -1/10, -1/10] : List ℚ).getD 1 0 ∨
      ([0, 5/2, 5/2, -1/10, -1/10] : List ℚ).getD 1 0 < -2 := by
  have h := backtest_position_invariants [0, 0, 0, 0, 0]
    [0, 5/2, 5/2, -1/10, -1/10] 2 0
  exact h.2.2.1 0 (-1)
    (by norm_num [backtest_mean_reversion, btStep, List.range', List.getD, List.set])
    (by norm_num [backtest_mean_reversion, btStep, List.range', List.getD, List.set])
    (by decide)

theorem foldl_min_spec (l : List ℤ) (a : ℤ) :
    (l.foldl min a = a ∨ l.foldl min a ∈ l) ∧ l.foldl min a ≤ a ∧
      ∀ x ∈ l, l.foldl min a ≤ x := by
  induction l generalizing a with
  | nil => exact ⟨Or.inl rfl, le_refl a, fun x hx => absurd hx (List.not_mem_nil x)⟩
  | cons b l ih =>
    obtain ⟨hm, hle, hall⟩ := ih (min a b)
    rw [List.foldl_cons]
    refine ⟨?_, le_trans hle (min_le_left a b), fun x hx => ?_⟩
    · rcases hm with hm | hm
      · rcases min_choice a b with hab | hab
        · exact Or.inl (hm.trans hab)
        · exact Or.inr (List.mem_cons.mpr (Or.inl (hm.trans hab)))
      · exact Or.inr (List.mem_cons.mpr (Or.inr hm))
    · rcases List.mem_cons.mp hx with rfl | hx
      · exact le_trans hle (min_le_right a x)
      · exact hall x hx

theorem foldl_max_spec (l : List ℤ) (a : ℤ) :
    (l.foldl max a = a ∨ l.foldl max a ∈ l) ∧ a ≤ l.foldl max a ∧
      ∀ x ∈ l, x ≤ l.foldl max a := by
  induction l generalizing a with
  | nil => exact ⟨Or.inl rfl, le_refl a, fun x hx => absurd hx (List.not_mem_nil x)⟩
  | cons b l ih =>
    obtain ⟨hm, hle, hall⟩ := ih (max a b)
    rw [List.foldl_cons]
    refine ⟨?_, le_trans (le_max_left a b) hle, fun x hx => ?_⟩
    · rcases hm with hm | hm
      · rcases max_choice a b with hab | hab
        · exact Or.inl (hm.trans hab)
        · exact Or.inr (List.mem_cons.mpr (Or.inl (hm.trans hab)))
      · exact Or.inr (List.mem_cons.mpr (Or.inr hm))
    · rcases List.mem_cons.mp hx with rfl | hx
      · exact le_trans (le_max_right a x) hle
      · exact hall x hx

theorem parseTicks_eq_map (l : List Tick)
    (h : ∀ t ∈ l, t.timestamp.isSome) : parseTicks l = some (l.map toP) := by
  induction l with
  | nil => rfl
  | cons t ts ih =>
    obtain ⟨ms, hms⟩ := Option.isSome_iff_exists.mp (h t (List.mem_cons_self t ts))
    rw [List.map_cons, parseTicks, hms, ih (fun u hu => h u (List.mem_cons_of_mem t hu))]
    simp [toP, hms]

theorem mem_firstUniquesAux (l : List String) :
    ∀ (seen : List String) (s : String),
      s ∈ firstUniquesAux seen l ↔ s ∈ l ∧ s ∉ seen := by
  induction l with
  | nil => intro seen s; simp [firstUniquesAux]
  | cons a as ih =>
    intro seen s
    rw [firstUniquesAux]
    split_ifs with ha
    · rw [ih]
      constructor
      · exact fun ⟨h1, h2⟩ => ⟨List.mem_cons_of_mem a h1, h2⟩
      · rintro ⟨h1, h2⟩
        rcases List.mem_cons.mp h1 with rfl | h1
        · exact absurd ha h2
        · exact ⟨h1, h2⟩
    · constructor
      · intro hmem
        rcases List.mem_cons.mp hmem with rfl | hmem
        · exact ⟨List.mem_cons_self s as, ha⟩
        · obtain ⟨h1, h2⟩ := (ih _ s).mp hmem
          refine ⟨List.mem_cons_of_mem a h1, fun hs => h2 (List.mem_cons_of_mem a hs)⟩
      · rintro ⟨h1, h2⟩
        rcases List.mem_cons.mp h1 with rfl | h1
        · exact List.mem_cons_self s _
        · by_cases hsa : s = a
          · subst hsa
            exact List.mem_cons_self s _
          · exact List.mem_cons_of_mem a ((ih _ s).mpr
              ⟨h1, fun hs => (List.mem_cons.mp hs).elim hsa h2⟩)

theorem nodup_firstUniquesAux (l : List String) :
    ∀ seen : List String, (firstUniquesAux seen l).Nodup := by
  induction l with
  | nil => intro seen; exact List.nodup_nil
  | cons a as ih =>
    intro seen
    rw [firstUniquesAux]
    split_ifs with ha
    · exact ih seen
    · refine List.nodup_cons.mpr ⟨fun hmem => ?_, ih (a :: seen)⟩
      exact ((mem_firstUniquesAux as (a :: seen) a).mp hmem).2 (List.mem_cons_self a seen)

theorem firstUniquesAux_eq_nil (l : List String) :
    ∀ seen : List String, (∀ x ∈ l, x ∈ seen) → firstUniquesAux seen l = [] := by
  induction l with
  | nil => intro seen _; rfl
  | cons a as ih =>
    intro seen h
    rw [firstUniquesAux, if_pos (h a (List.mem_cons_self a as))]
    exact ih seen (fun x hx => h x (List.mem_cons_of_mem a hx))

theorem mem_firstUniques (l : List String) (s : String) :
    s ∈ firstUniques l ↔ s ∈ l := by
  rw [firstUniques, mem_firstUniquesAux]
  simp

theorem nodup_firstUniques (l : List String) : (firstUniques l).Nodup :=
  nodup_firstUniquesAux l []

theorem firstUniques_all_eq (l : List String) (s : String) (hne : l ≠ [])
    (h : ∀ x ∈ l, x = s) : firstUniques l = [s] := by
  rcases l with _ | ⟨a, as⟩
  · exact absurd rfl hne
  · have ha : a = s := h a (List.mem_cons_self a as)
    subst ha
    rw [firstUniques, firstUniquesAux, if_neg (List.not_mem_nil a)]
    rw [firstUniquesAux_eq_nil as (a :: []) (fun x hx => by
      rw [h x (List.mem_cons_of_mem a hx)]
      exact List.mem_cons_self a [])]

theorem aggBucket_dt_symbol (sym : String) (b : ℤ) (l : List PTick) (c : Candle)
    (h : aggBucket sym b l = some c) : c.dt = b ∧ c.symbol = sym := by
  rcases l with _ | ⟨t, ts⟩
  · cases h
  · rw [aggBucket] at h
    injection h with h
    rw [← h]
    exact ⟨rfl, rfl⟩

theorem fillBuckets_symbol (freq : ℤ) (sym : String) (sts : List PTick) :
    ∀ (bs : List ℤ) (lc : Option ℚ) (c : Candle),
      c ∈ fillBuckets freq sym sts lc bs → c.symbol = sym := by
  intro bs
  induction bs with
  | nil => intro lc c hc; cases hc
  | cons b bs ih =>
    intro lc c hc
    rcases lc with _ | cl <;>
      rw [fillBuckets] at hc <;>
      rcases hagg : aggBucket sym b (sts.filter fun t => bucketOf freq t.ts = b)
        with _ | c0 <;>
      rw [hagg] at hc
    · exact ih none c hc
    · rcases List.mem_cons.mp hc with rfl | hc
      · exact (aggBucket_dt_symbol _ _ _ _ hagg).2
      · exact ih _ c hc
    · rcases List.mem_cons.mp hc with rfl | hc
      · rfl
      · exact ih _ c hc
    · rcases List.mem_cons.mp hc with rfl | hc
      · exact (aggBucket_dt_symbol _ _ _ _ hagg).2
      · exact ih _ c hc

theorem fillBuckets_cons_struct (freq : ℤ) (sym : String) (sts : List PTick)
    (b : ℤ) (bs : List ℤ) (cl : ℚ) :
    ∃ c0, fillBuckets freq sym sts (some cl) (b :: bs)
        = c0 :: fillBuckets freq sym sts (some c0.close) bs
      ∧ c0.dt = b
      ∧ ((sts.filter fun t => bucketOf freq t.ts = b) = [] →
          c0.open_ = cl ∧ c0.high = cl ∧ c0.low = cl ∧ c0.close = cl
            ∧ c0.volume = 0) := by
  rw [fillBuckets]
  rcases hagg : aggBucket sym b (sts.filter fun t => bucketOf freq t.ts = b)
    with _ | c0
  · exact ⟨⟨b, cl, cl, cl, cl, 0, sym⟩, rfl, rfl,
      fun _ => ⟨rfl, rfl, rfl, rfl, rfl⟩⟩
  · refine ⟨c0, rfl, (aggBucket_dt_symbol _ _ _ _ hagg).1, fun hfil => ?_⟩
    rw [hfil] at hagg
    cases hagg

theorem fillBuckets_map_dt (freq : ℤ) (sym : String) (sts : List PTick) :
    ∀ (bs : List ℤ) (cl : ℚ),
      (fillBuckets freq sym sts (some cl) bs).map (fun c => c.dt) = bs := by
  intro bs
  induction bs with
  | nil => intro cl; rfl
  | cons b bs ih =>
    intro cl
    obtain ⟨c0, heq, hdt, _⟩ := fillBuckets_cons_struct freq sym sts b bs cl
    rw [heq, List.map_cons, ih, hdt]

theorem fillBuckets_pairs (freq : ℤ) (sym : String) (sts : List PTick) :
    ∀ (bs : List ℤ) (cl : ℚ) (k : ℕ) (cp c : Candle),
      (fillBuckets freq sym sts (some cl) bs)[k]? = some cp →
      (fillBuckets freq sym sts (some cl) bs)[k + 1]? = some c →
      (sts.filter fun t => bucketOf freq t.ts = c.dt) = [] →
      c.open_ = cp.close ∧ c.high = cp.close ∧ c.low = cp.close
        ∧ c.close = cp.close ∧ c.volume = 0 := by
  intro bs
  induction bs with
  | nil => intro cl k c' c h1 _ _; cases h1
  | cons b bs ih =>
    intro cl k c' c h1 h2 hfil
    obtain ⟨c0, heq, hdt, _⟩ := fillBuckets_cons_struct freq sym sts b bs cl
    rw [heq] at h1 h2
    rcases k with _ | k
    · rw [List.getElem?_cons_zero] at h1
      injection h1 with h1
      subst h1
      rw [List.getElem?_cons_succ] at h2
      rcases bs with _ | ⟨b1, bs'⟩
      · cases h2
      · obtain ⟨c1, heq1, hdt1, hsynth1⟩ :=
          fillBuckets_cons_struct freq sym sts b1 bs' c0.close
        rw [heq1, List.getElem?_cons_zero] at h2
        injection h2 with h2
        subst h2
        rw [hdt1] at hfil
        exact hsynth1 hfil
    · rw [List.getElem?_cons_succ] at h1
      rw [List.getElem?_cons_succ] at h2
      exact ih c0.close k c' c h1 h2 hfil

theorem freqMap_pos (g : String) (f : ℤ) (h : freqMap g = some f) : 0 < f := by
  unfold freqMap at h
  split at h <;> first
    | (injection h with h; omega)
    | cases h

theorem resampleSymbol_symbol (freq : ℤ) (sym : String) (pts : List PTick)
    (c : Candle) (hc : c ∈ resampleSymbol freq sym pts) : c.symbol = sym := by
  unfold resampleSymbol at hc
  rcases hmatch : pts.filter (fun t => t.symbol = sym) with _ | ⟨t, ts⟩
  · rw [hmatch] at hc
    cases hc
  · rw [hmatch] at hc
    exact fillBuckets_symbol _ _ _ _ _ c hc

theorem filter_flatMap_symbol (syms : List String) (f : String → List Candle)
    (sym : String) (hn : syms.Nodup) (hmem : sym ∈ syms)
    (hf : ∀ s ∈ syms, ∀ c ∈ f s, c.symbol = s) :
    (syms.flatMap f).filter (fun c => c.symbol = sym) = f sym := by
  induction syms with
  | nil => cases hmem
  | cons a as ih =>
    rw [List.flatMap_cons, List.filter_append]
    rcases List.mem_cons.mp hmem with rfl | hmem'
    · have h1 : (f sym).filter (fun c => c.symbol = sym) = f sym :=
        List.filter_eq_self.mpr (fun c hc => by
          simp [hf sym (List.mem_cons_self _ _) c hc])
      have h2 : (as.flatMap f).filter (fun c => c.symbol = sym) = [] := by
        apply List.filter_eq_nil_iff.mpr
        intro c hc
        obtain ⟨s, hs, hcs⟩ := List.mem_flatMap.mp hc
        have hsym := hf s (List.mem_cons_of_mem _ hs) c hcs
        have hns : s ≠ sym := fun h => (List.nodup_cons.mp hn).1 (h ▸ hs)
        simp [hsym, hns]
      rw [h1, h2, List.append_nil]
    · have ha : a ≠ sym := fun h => (List.nodup_cons.mp hn).1 (h ▸ hmem')
      have h1 : (f a).filter (fun c => c.symbol = sym) = [] := by
        apply List.filter_eq_nil_iff.mpr
        intro c hc
        have hsym := hf a (List.mem_cons_self _ _) c hc
        simp [hsym, ha]
      rw [h1, List.nil_append]
      exact ih (List.nodup_cons.mp hn).2 hmem'
        (fun s hs => hf s (List.mem_cons_of_mem _ hs))

theorem tradedBuckets_eq (ticks : List Tick) (freq : ℤ) (sym : String)
    (hp : ∀ t ∈ ticks, 0 < t.price → t.timestamp.isSome) :
    tradedBuckets ticks freq sym
      = (((ticks.filter (fun t => 0 < t.price)).map toP).filter
          (fun u => u.symbol = sym)).map (fun u => bucketOf freq u.ts) := by
  induction ticks with
  | nil => rfl
  | cons t ts ih =>
    have ihts := ih (fun u hu hpu => hp u (List.mem_cons_of_mem t hu) hpu)
    by_cases hpr : 0 < t.price
    · obtain ⟨ms, hms⟩ := Option.isSome_iff_exists.mp
        (hp t (List.mem_cons_self t ts) hpr)
      by_cases hsym : t.symbol = sym
      · simp [tradedBuckets, List.filterMap_cons, hpr, hsym, hms, toP, ihts,
          tradedBuckets] at ihts ⊢
        exact ihts
      · simp [tradedBuckets, List.filterMap_cons, hpr, hsym, toP, ihts,
          tradedBuckets] at ihts ⊢
        exact ihts
    · simp [tradedBuckets, List.filterMap_cons, hpr, toP, ihts,
        tradedBuckets] at ihts ⊢
      exact ihts

theorem resample_ohlcv_eq_flatMap (ticks : List Tick) (freqMs : ℤ)
    (hne : ticks ≠ []) (hf : 0 < freqMs)
    (hpos : ∃ t ∈ ticks, 0 < t.price)
    (hparse : ∀ t ∈ ticks, 0 < t.price → t.timestamp.isSome) :
    resample_ohlcv ticks freqMs
      = (firstUniques (((ticks.filter (fun t => 0 < t.price)).map toP).map
          (fun u => u.symbol))).flatMap
          (fun s => resampleSymbol freqMs s
            ((ticks.filter (fun t => 0 < t.price)).map toP)) := by
  have hpne : ticks.filter (fun t => 0 < t.price) ≠ [] := by
    obtain ⟨t, ht, htp⟩ := hpos
    exact List.ne_nil_of_mem (List.mem_filter.mpr ⟨ht, by simpa using htp⟩)
  unfold resample_ohlcv
  rw [if_neg (by simpa [List.isEmpty_iff] using hne),
    if_neg (not_le.mpr hf),
    if_neg (by simpa [List.isEmpty_iff] using hpne),
    parseTicks_eq_map _ (fun u hu => hparse u (List.mem_filter.mp hu).1
      (by simpa using (List.mem_filter.mp hu).2))]

theorem int_min?_spec (l : List ℤ) (a : ℤ) (h : l.min? = some a) :
    a ∈ l ∧ ∀ b ∈ l, a ≤ b := by
  haveI : Std.Antisymm (fun (x1 x2 : ℤ) => x1 ≤ x2) :=
    ⟨fun h1 h2 => le_antisymm h1 h2⟩
  rw [List.min?_eq_some_iff] at h
  · exact h
  · exact fun x => le_refl x
  · exact fun x y => min_choice x y
  · exact fun x y z => le_min_iff

theorem int_max?_spec (l : List ℤ) (a : ℤ) (h : l.max? = some a) :
    a ∈ l ∧ ∀ b ∈ l, b ≤ a := by
  haveI : Std.Antisymm (fun (x1 x2 : ℤ) => x1 ≤ x2) :=
    ⟨fun h1 h2 => le_antisymm h1 h2⟩
  rw [List.max?_eq_some_iff] at h
  · exact h
  · exact fun x => le_refl x
  · exact fun x y => max_choice x y
  · exact fun x y z => max_le_iff

theorem int_min?_eq (l : List ℤ) (a : ℤ) (hmem : a ∈ l)
    (hle : ∀ b ∈ l, a ≤ b) : l.min? = some a := by
  haveI : Std.Antisymm (fun (x1 x2 : ℤ) => x1 ≤ x2) :=
    ⟨fun h1 h2 => le_antisymm h1 h2⟩
  rw [List.min?_eq_some_iff]
  · exact ⟨hmem, hle⟩
  · exact fun x => le_refl x
  · exact fun x y => min_choice x y
  · exact fun x y z => le_min_iff

theorem int_max?_eq (l : List ℤ) (a : ℤ) (hmem : a ∈ l)
    (hle : ∀ b ∈ l, b ≤ a) : l.max? = some a := by
  haveI : Std.Antisymm (fun (x1 x2 : ℤ) => x1 ≤ x2) :=
    ⟨fun h1 h2 => le_antisymm h1 h2⟩
  rw [List.max?_eq_some_iff]
  · exact ⟨hmem, hle⟩
  · exact fun x => le_refl x
  · exact fun x y => max_choice x y
  · exact fun x y z => max_le_iff

theorem resampleSymbol_cons_eq (freq : ℤ) (sym : String) (pts : List PTick)
    (t : PTick) (ts : List PTick)
    (h : pts.filter (fun u => u.symbol = sym) = t :: ts) :
    resampleSymbol freq sym pts
      = fillBuckets freq sym (t :: ts) none
          (calendar freq
            (ts.foldl (fun a u => min a (bucketOf freq u.ts))
              (bucketOf freq t.ts))
            (ts.foldl (fun a u => max a (bucketOf freq u.ts))
              (bucketOf freq t.ts))) := by
  unfold resampleSymbol
  rw [h]

/-- C5.  Gap-fill invariant of the resampler: for ticks with well-formed
(parseable) timestamps, any supported granularity, and any symbol that
traded (its traded-bucket list has a minimum `b0` and maximum `b1`), the
candle sequence emitted for that symbol covers exactly the contiguous
bucket calendar from `b0` to `b1` — one candle per boundary, no missing
bucket — and every synthetic candle (a bucket in which the symbol did not
trade) is flat at the previous candle's close with zero volume. -/
theorem resample_gap_fill_invariant (ticks : List Tick) (freqMs : ℤ)
    (g sym : String) (hg : freqMap g = some freqMs)
    (hparse : ∀ t ∈ ticks, 0 < t.price → t.timestamp.isSome)
    (b0 b1 : ℤ)
    (hb0 : (tradedBuckets ticks freqMs sym).min? = some b0)
    (hb1 : (tradedBuckets ticks freqMs sym).max? = some b1) :
    ((resample_ohlcv ticks freqMs).filter (fun c => c.symbol = sym)).map
        (fun c => c.dt) = calendar freqMs b0 b1 ∧
    ∀ k cp c,
      ((resample_ohlcv ticks freqMs).filter (fun c => c.symbol = sym))[k]?
        = some cp →
      ((resample_ohlcv ticks freqMs).filter (fun c => c.symbol = sym))[k + 1]?
        = some c →
      c.dt ∉ tradedBuckets ticks freqMs sym →
      c.open_ = cp.close ∧ c.high = cp.close ∧ c.low = cp.close
        ∧ c.close = cp.close ∧ c.volume = 0 := by
  have hfr : 0 < freqMs := freqMap_pos g freqMs hg
  have htb := tradedBuckets_eq ticks freqMs sym hparse
  have hb0mem : b0 ∈ tradedBuckets ticks freqMs sym :=
    (int_min?_spec _ _ hb0).1
  obtain ⟨u0, hu0mem, hu0b⟩ := List.mem_map.mp (htb ▸ hb0mem)
  have hu0sym : u0.symbol = sym := by
    simpa using (List.mem_filter.mp hu0mem).2
  have hu0pts : u0 ∈ (ticks.filter (fun t => 0 < t.price)).map toP :=
    (List.mem_filter.mp hu0mem).1
  obtain ⟨t0, ht0mem, ht0⟩ := List.mem_map.mp hu0pts
  have ht0ticks : t0 ∈ ticks := (List.mem_filter.mp ht0mem).1
  have ht0price : 0 < t0.price := by
    simpa using (List.mem_filter.mp ht0mem).2
  rw [resample_ohlcv_eq_flatMap ticks freqMs (List.ne_nil_of_mem ht0ticks) hfr
    ⟨t0, ht0ticks, ht0price⟩ hparse]
  have hsymmem : sym ∈ firstUniques
      (((ticks.filter (fun t => 0 < t.price)).map toP).map
        (fun u => u.symbol)) := by
    rw [mem_firstUniques]
    exact List.mem_map.mpr ⟨u0, hu0pts, hu0sym⟩
  rw [filter_flatMap_symbol _ _ sym (nodup_firstUniques _) hsymmem
    (fun s _ c hc => resampleSymbol_symbol freqMs s _ c hc)]
  rcases hsts : ((ticks.filter (fun t => 0 < t.price)).map toP).filter
      (fun u => u.symbol = sym) with _ | ⟨t, ts⟩
  · rw [hsts] at hu0mem
    cases hu0mem
  · have htb2 : tradedBuckets ticks freqMs sym
        = (t :: ts).map (fun u => bucketOf freqMs u.ts) := by
      rw [htb, hsts]
    have hminfold : ((t :: ts).map (fun u => bucketOf freqMs u.ts)).min?
        = some (ts.foldl (fun a u => min a (bucketOf freqMs u.ts))
            (bucketOf freqMs t.ts)) := by
      rw [List.map_cons]
      show some ((ts.map (fun u => bucketOf freqMs u.ts)).foldl min
        (bucketOf freqMs t.ts)) = _
      rw [List.foldl_map]
    have hmaxfold : ((t :: ts).map (fun u => bucketOf freqMs u.ts)).max?
        = some (ts.foldl (fun a u => max a (bucketOf freqMs u.ts))
            (bucketOf freqMs t.ts)) := by
      rw [List.map_cons]
      show some ((ts.map (fun u => bucketOf freqMs u.ts)).foldl max
        (bucketOf freqMs t.ts)) = _
      rw [List.foldl_map]
    have hb0fold : ts.foldl (fun a u => min a (bucketOf freqMs u.ts))
        (bucketOf freqMs t.ts) = b0 := by
      have h := hb0
      rw [htb2, hminfold] at h
      exact Option.some_inj.mp h
    have hb1fold : ts.foldl (fun a u => max a (bucketOf freqMs u.ts))
        (bucketOf freqMs t.ts) = b1 := by
      have h := hb1
      rw [htb2, hmaxfold] at h
      exact Option.some_inj.mp h
    rw [resampleSymbol_cons_eq freqMs sym _ t ts hsts, hb0fold, hb1fold]
    have hfilne : (t :: ts).filter (fun u => bucketOf freqMs u.ts = b0) ≠ [] := by
      obtain ⟨u1, hu1, hub⟩ := List.mem_map.mp (htb2 ▸ hb0mem)
      exact List.ne_nil_of_mem (List.mem_filter.mpr ⟨hu1, by simpa using hub⟩)
    have hcal : calendar freqMs b0 b1
        = b0 :: ((List.range (((b1 - b0).fdiv freqMs).toNat)).map
            (fun k : ℕ => b0 + freqMs * ((k : ℤ) + 1))) := by
      unfold calendar
      rw [List.range_succ_eq_map, List.map_cons, List.map_map]
      congr 1
      simp
    rcases hfil0 : (t :: ts).filter (fun u => bucketOf freqMs u.ts = b0)
      with _ | ⟨v0, vs⟩
    · exact absurd hfil0 hfilne
    · have hc0 : (aggBucket sym b0
          ((t :: ts).filter (fun u => bucketOf freqMs u.ts = b0))).isSome := by
        rw [hfil0]
        rfl
      obtain ⟨c0, hc0⟩ := Option.isSome_iff_exists.mp hc0
      have hfill : ∀ bs, fillBuckets freqMs sym (t :: ts) none (b0 :: bs)
          = c0 :: fillBuckets freqMs sym (t :: ts) (some c0.close) bs := by
        intro bs
        rw [fillBuckets, hc0]
      have hfill2 : ∀ bs,
          fillBuckets freqMs sym (t :: ts) (some c0.close) (b0 :: bs)
            = c0 :: fillBuckets freqMs sym (t :: ts) (some c0.close) bs := by
        intro bs
        rw [fillBuckets, hc0]
      constructor
      · rw [hcal, hfill, List.map_cons, fillBuckets_map_dt,
          (aggBucket_dt_symbol _ _ _ _ hc0).1]
      · intro k cp c h1 h2 hnot
        have hfilc : (t :: ts).filter
            (fun u => bucketOf freqMs u.ts = c.dt) = [] := by
          apply List.filter_eq_nil_iff.mpr
          intro u hu hbad
          exact hnot (htb2 ▸ List.mem_map.mpr ⟨u, hu, by simpa using hbad⟩)
        rw [hcal, hfill, ← hfill2] at h1 h2
        exact fillBuckets_pairs freqMs sym (t :: ts) _ c0.close k cp c h1 h2 hfilc

/-- Witness for C5: two trades one empty minute apart produce the
three-bucket calendar `[0, 60000, 120000]`, and the synthetic middle candle
opens at the previous candle's close. -/
theorem resample_gap_fill_invariant_witness :
    ((resample_ohlcv [⟨"btc", some 0, 10, 1⟩, ⟨"btc", some 120000, 20, 2⟩]
        60000).filter (fun c => c.symbol = "btc")).map (fun c => c.dt)
      = calendar 60000 0 120000 ∧
    (⟨60000, 10, 10, 10, 10, 0, "btc"⟩ : Candle).open_
      = (⟨0, 10, 10, 10, 10, 1, "btc"⟩ : Candle).close := by
  have h := resample_gap_fill_invariant
    [⟨"btc", some 0, 10, 1⟩, ⟨"btc", some 120000, 20, 2⟩] 60000 "1min" "btc"
    rfl (by decide) 0 120000 (by decide) (by decide)
  exact ⟨h.1, (h.2 0 ⟨0, 10, 10, 10, 10, 1, "btc"⟩
    ⟨60000, 10, 10, 10, 10, 0, "btc"⟩ (by decide) (by decide) (by decide)).1⟩

theorem bucketOf_mul (freq x : ℤ) (hf : freq ≠ 0) :
    bucketOf freq (freq * x) = freq * x := by
  unfold bucketOf
  rw [Int.mul_fdiv_cancel_left x hf]

theorem range_filter_eq (n k : ℕ) (h : k < n) :
    (List.range n).filter (fun j => j = k) = [k] := by
  induction n with
  | zero => omega
  | succ n ih =>
    rw [List.range_succ, List.filter_append]
    by_cases hk : k < n
    · rw [ih hk]
      have : (List.filter (fun j => decide (j = k)) [n]) = [] := by
        simp
        omega
      rw [this, List.append_nil]
    · have hkn : k = n := by omega
      subst hkn
      have h1 : (List.range k).filter (fun j => decide (j = k)) = [] := by
        apply List.filter_eq_nil_iff.mpr
        intro j hj
        have := List.mem_range.mp hj
        simp
        omega
      rw [h1, List.nil_append]
      simp

theorem fillBuckets_singletons (freq : ℤ) (sym : String) (sts : List PTick)
    (bf : ℕ → ℤ) (tf : ℕ → PTick) :
    ∀ (idxs : List ℕ) (lc : Option ℚ),
      (∀ k ∈ idxs, sts.filter (fun u => bucketOf freq u.ts = bf k) = [tf k]) →
      fillBuckets freq sym sts lc (idxs.map bf)
        = idxs.map (fun k => ⟨bf k, (tf k).price, (tf k).price, (tf k).price,
            (tf k).price, (tf k).size, sym⟩) := by
  intro idxs
  induction idxs with
  | nil => intro lc _; rfl
  | cons k ks ih =>
    intro lc h
    rcases lc with _ | cl
    all_goals
      rw [List.map_cons, List.map_cons, fillBuckets,
        h k (List.mem_cons_self k ks),
        show aggBucket sym (bf k) [tf k]
          = some ⟨bf k, (tf k).price, (tf k).price, (tf k).price,
              (tf k).price, (tf k).size, sym⟩ from rfl]
      show (⟨bf k, (tf k).price, (tf k).price, (tf k).price, (tf k).price,
            (tf k).size, sym⟩ : Candle)
          :: fillBuckets freq sym sts (some (tf k).price) (List.map bf ks)
        = _
      congr 1
      exact ih _ (fun j hj => h j (List.mem_cons_of_mem _ hj))

/-- Counterexample for C8: a one-candle output stream (itself trivially
contiguous) re-fed to the resampler at the same granularity (as ticks at
the bucket start carrying close and volume) does not come back unchanged:
the candle `(open 1, high 2, low 1, close 2)` collapses to the flat candle
at its close. -/
theorem resample_not_idempotent :
    resample_ohlcv (List.map candleToTick
        (resample_ohlcv [⟨"a", some 0, 1, 1⟩, ⟨"a", some 1000, 2, 1⟩] 60000))
        60000
      ≠ resample_ohlcv [⟨"a", some 0, 1, 1⟩, ⟨"a", some 1000, 2, 1⟩] 60000 ∧
    (resample_ohlcv [⟨"a", some 0, 1, 1⟩, ⟨"a", some 1000, 2, 1⟩] 60000).map
        (fun c => (c.dt, c.open_, c.close))
      = [(0, 1, 2)] ∧
    (resample_ohlcv (List.map candleToTick
        (resample_ohlcv [⟨"a", some 0, 1, 1⟩, ⟨"a", some 1000, 2, 1⟩] 60000))
        60000).map (fun c => (c.dt, c.open_, c.close))
      = [(0, 2, 2)] := by
  refine ⟨?_, by decide, by decide⟩
  decide

/-- C8 (amended).  Resampling is not idempotent on general output — the
counterexample shows re-aggregation collapses a candle to its close.  The
fixed point that does hold: a contiguous stream of flat candles with
positive closes at bucket-aligned times (exactly the shape of a gap-filled
flat output), re-fed as ticks (bucket-start instant, price = close,
size = volume) at the same granularity, is returned unchanged. -/
theorem resample_flat_stream_fixed_point (sym : String) (freq b0 m : ℤ)
    (cvs : List (ℚ × ℚ)) (hb0 : b0 = freq * m) (hf : 0 < freq)
    (hne : cvs ≠ []) (hpos : ∀ cv ∈ cvs, 0 < cv.1) :
    resample_ohlcv ((flatStream sym freq b0 cvs).map candleToTick) freq
      = flatStream sym freq b0 cvs := by
  obtain ⟨n', hlen⟩ : ∃ n', cvs.length = n' + 1 := by
    rcases cvs with _ | ⟨c, cs⟩
    · exact absurd rfl hne
    · exact ⟨cs.length, rfl⟩
  have hfne : freq ≠ 0 := ne_of_gt hf
  have hticks : (flatStream sym freq b0 cvs).map candleToTick
      = (List.range cvs.length).map (fun k : ℕ =>
          (⟨sym, some (b0 + freq * (k : ℤ)), (cvs.getD k (0, 0)).1,
            (cvs.getD k (0, 0)).2⟩ : Tick)) := by
    unfold flatStream
    rw [List.map_map]
    rfl
  have hpk : ∀ k, k < cvs.length → 0 < (cvs.getD k (0, 0)).1 := by
    intro k hk
    rw [List.getD_eq_getElem cvs (0, 0) hk]
    exact hpos _ (List.getElem_mem hk)
  have hne' : (flatStream sym freq b0 cvs).map candleToTick ≠ [] := by
    rw [hticks, hlen]
    simp
  have hpos' : ∃ t ∈ (flatStream sym freq b0 cvs).map candleToTick,
      0 < t.price := by
    rw [hticks]
    exact ⟨_, List.mem_map.mpr ⟨0, List.mem_range.mpr (by omega), rfl⟩,
      hpk 0 (by omega)⟩
  have hparse' : ∀ t ∈ (flatStream sym freq b0 cvs).map candleToTick,
      0 < t.price → t.timestamp.isSome := by
    rw [hticks]
    intro t ht _
    obtain ⟨k, _, rfl⟩ := List.mem_map.mp ht
    rfl
  rw [resample_ohlcv_eq_flatMap _ freq hne' hf hpos' hparse']
  have hfilter : ((flatStream sym freq b0 cvs).map candleToTick).filter
      (fun t => 0 < t.price) = (flatStream sym freq b0 cvs).map candleToTick := by
    apply List.filter_eq_self.mpr
    intro t ht
    rw [hticks] at ht
    obtain ⟨k, hk, rfl⟩ := List.mem_map.mp ht
    simpa using hpk k (List.mem_range.mp hk)
  rw [hfilter, hticks]
  have hpts : ((List.range cvs.length).map (fun k : ℕ =>
        (⟨sym, some (b0 + freq * (k : ℤ)), (cvs.getD k (0, 0)).1,
          (cvs.getD k (0, 0)).2⟩ : Tick))).map toP
      = (List.range cvs.length).map (fun k : ℕ =>
          (⟨sym, b0 + freq * (k : ℤ), (cvs.getD k (0, 0)).1,
            (cvs.getD k (0, 0)).2⟩ : PTick)) := by
    rw [List.map_map]
    rfl
  rw [hpts]
  set P : ℕ → PTick := fun k : ℕ =>
    (⟨sym, b0 + freq * (k : ℤ), (cvs.getD k (0, 0)).1,
      (cvs.getD k (0, 0)).2⟩ : PTick) with hPdef
  have hsyms : firstUniques (((List.range cvs.length).map P).map
      (fun u => u.symbol)) = [sym] := by
    apply firstUniques_all_eq
    · rw [hlen]
      simp
    · intro x hx
      rw [List.map_map] at hx
      obtain ⟨k, _, rfl⟩ := List.mem_map.mp hx
      rfl
  rw [hsyms, List.flatMap_cons, List.flatMap_nil, List.append_nil]
  have hconsform : (List.range cvs.length).map P
      = P 0 :: (List.range n').map (fun j => P (j + 1)) := by
    rw [hlen, List.range_succ_eq_map, List.map_cons, List.map_map]
    rfl
  have hfltcons : ((List.range cvs.length).map P).filter
      (fun u => u.symbol = sym)
      = P 0 :: (List.range n').map (fun j => P (j + 1)) := by
    rw [← hconsform]
    apply List.filter_eq_self.mpr
    intro u hu
    obtain ⟨k, _, rfl⟩ := List.mem_map.mp hu
    simp [hPdef]
  rw [resampleSymbol_cons_eq freq sym _ _ _ hfltcons]
  have hbucket : ∀ k : ℕ, bucketOf freq (P k).ts = b0 + freq * (k : ℤ) := by
    intro k
    show bucketOf freq (b0 + freq * (k : ℤ)) = _
    rw [hb0, show freq * m + freq * (k : ℤ) = freq * (m + k) from by ring,
      bucketOf_mul freq _ hfne]
  have hbuckets : ((P 0 :: (List.range n').map (fun j => P (j + 1))).map
      (fun u => bucketOf freq u.ts))
      = (List.range (n' + 1)).map (fun k : ℕ => b0 + freq * (k : ℤ)) := by
    rw [List.range_succ_eq_map, List.map_cons, List.map_cons, List.map_map,
      List.map_map]
    congr 1
    · rw [hbucket 0]
    · apply List.map_congr_left
      intro j _
      show bucketOf freq (P (j + 1)).ts = b0 + freq * ((Nat.succ j : ℕ) : ℤ)
      rw [hbucket (j + 1)]
  have hminfold : ((P 0 :: (List.range n').map (fun j => P (j + 1))).map
      (fun u => bucketOf freq u.ts)).min?
      = some (((List.range n').map (fun j => P (j + 1))).foldl
          (fun a u => min a (bucketOf freq u.ts)) (bucketOf freq (P 0).ts)) := by
    rw [List.map_cons]
    show some ((((List.range n').map (fun j => P (j + 1))).map
        (fun u => bucketOf freq u.ts)).foldl min (bucketOf freq (P 0).ts)) = _
    rw [List.foldl_map]
  have hmaxfold : ((P 0 :: (List.range n').map (fun j => P (j + 1))).map
      (fun u => bucketOf freq u.ts)).max?
      = some (((List.range n').map (fun j => P (j + 1))).foldl
          (fun a u => max a (bucketOf freq u.ts)) (bucketOf freq (P 0).ts)) := by
    rw [List.map_cons]
    show some ((((List.range n').map (fun j => P (j + 1))).map
        (fun u => bucketOf freq u.ts)).foldl max (bucketOf freq (P 0).ts)) = _
    rw [List.foldl_map]
  have hminval : ((List.range (n' + 1)).map
      (fun k : ℕ => b0 + freq * (k : ℤ))).min? = some b0 := by
    apply int_min?_eq
    · exact List.mem_map.mpr ⟨0, List.mem_range.mpr (by omega), by simp⟩
    · intro b hb
      obtain ⟨k, _, rfl⟩ := List.mem_map.mp hb
      have hnn : (0 : ℤ) ≤ freq * (k : ℤ) :=
        mul_nonneg (le_of_lt hf) (Int.natCast_nonneg k)
      omega
  have hmaxval : ((List.range (n' + 1)).map
      (fun k : ℕ => b0 + freq * (k : ℤ))).max? = some (b0 + freq * (n' : ℤ)) := by
    apply int_max?_eq
    · exact List.mem_map.mpr ⟨n', List.mem_range.mpr (by omega), rfl⟩
    · intro b hb
      obtain ⟨k, hk, rfl⟩ := List.mem_map.mp hb
      have hkle : ((k : ℤ)) ≤ (n' : ℤ) := by
        exact_mod_cast Nat.lt_succ_iff.mp (List.mem_range.mp hk)
      have := mul_le_mul_of_nonneg_left hkle (le_of_lt hf)
      omega
  have hb0fold : ((List.range n').map (fun j => P (j + 1))).foldl
      (fun a u => min a (bucketOf freq u.ts)) (bucketOf freq (P 0).ts) = b0 := by
    have h := hminval
    rw [← hbuckets, hminfold] at h
    exact Option.some_inj.mp h
  have hb1fold : ((List.range n').map (fun j => P (j + 1))).foldl
      (fun a u => max a (bucketOf freq u.ts)) (bucketOf freq (P 0).ts)
      = b0 + freq * (n' : ℤ) := by
    have h := hmaxval
    rw [← hbuckets, hmaxfold] at h
    exact Option.some_inj.mp h
  rw [hb0fold, hb1fold]
  have hcal : calendar freq b0 (b0 + freq * (n' : ℤ))
      = (List.range (n' + 1)).map (fun k : ℕ => b0 + freq * (k : ℤ)) := by
    unfold calendar
    rw [show b0 + freq * (n' : ℤ) - b0 = freq * (n' : ℤ) from by ring,
      Int.mul_fdiv_cancel_left _ hfne]
    simp
  rw [hcal]
  have hsingle : ∀ k ∈ List.range (n' + 1),
      (P 0 :: (List.range n').map (fun j => P (j + 1))).filter
        (fun u => bucketOf freq u.ts = b0 + freq * (k : ℤ)) = [P k] := by
    intro k hk
    have hk' : k < n' + 1 := List.mem_range.mp hk
    rw [← hconsform, List.filter_map]
    have hpred : ∀ j ∈ List.range cvs.length,
        ((fun u => decide (bucketOf freq u.ts = b0 + freq * (k : ℤ))) ∘ P) j
          = decide (j = k) := by
      intro j _
      simp only [Function.comp_apply]
      rw [hbucket j]
      apply decide_eq_decide.mpr
      constructor
      · intro h
        have h2 : freq * ((j : ℕ) : ℤ) = freq * (k : ℤ) := by omega
        have h3 := mul_left_cancel₀ hfne h2
        exact_mod_cast h3
      · intro h
        rw [h]
    rw [List.filter_congr hpred, hlen, range_filter_eq (n' + 1) k hk',
      List.map_cons, List.map_nil]
  rw [fillBuckets_singletons freq sym
    (P 0 :: (List.range n').map (fun j => P (j + 1)))
    (fun k : ℕ => b0 + freq * (k : ℤ)) P (List.range (n' + 1)) none hsingle]
  unfold flatStream
  rw [hlen]

/-- Witness for C8's amended statement: the flat two-candle stream with
closes 3 and 7 at buckets 0 and 60000 is a fixed point of the resampler. -/
theorem resample_flat_stream_fixed_point_witness :
    resample_ohlcv ((flatStream "btc" 60000 0 [(3, 1), (7, 2)]).map
      candleToTick) 60000 = flatStream "btc" 60000 0 [(3, 1), (7, 2)] :=
  resample_flat_stream_fixed_point "btc" 60000 0 0 [(3, 1), (7, 2)]
    (by decide) (by decide) (by decide) (by decide)

end CryptoAnalytics
